import Mathlib

/-!
# Verification of the earthstar document index and crypto/encoding layer

Shallow embedding of `src/storage/storageMemory.ts` and of the crypto and
base32-encoding layer exercised by `src/test/crypto.test.ts`.

The repository snapshot under verification holds `storageMemory.ts` and
`crypto.test.ts`; the modules `storage/query.ts`, `storage/storageBase.ts`,
`crypto/crypto.ts` and `crypto/encoding.ts` are referenced but not present,
so those definitions are modelled from the specification (each such
definition carries a doc comment starting `Modelled from the spec:`).
-/

namespace Earthstar

/-! ## Base32 codec

Modelled from the spec: `src/crypto/encoding.ts` is not in the snapshot.
Spec: "strict base32 text encoding/decoding with a one-character format tag";
"Output text begins with a fixed one-character format tag (`'b'`)";
"Alphabet is lowercase RFC4648 base32 (`a`-`z`, `2`-`7`); decoding fails on:
empty input, missing/incorrect tag, any uppercase letter, any character
outside the alphabet, embedded whitespace, or alphabet characters that are
valid individually but decode to non-zero padding bits"; "no redundant
encodings accepted".
-/

/-- Value of one base32 digit: `'a'`..`'z'` map to `0`..`25`,
`'2'`..`'7'` map to `26`..`31`; anything else is rejected. -/
def charToVal (c : Char) : Option Nat :=
  if 97 ≤ c.toNat ∧ c.toNat ≤ 122 then some (c.toNat - 97)
  else if 50 ≤ c.toNat ∧ c.toNat ≤ 55 then some (c.toNat - 24)
  else none

/-- The base32 digit for a 5-bit value (inverse of `charToVal` below 32). -/
def valToChar (v : Nat) : Char :=
  if v < 26 then Char.ofNat (97 + v) else Char.ofNat (24 + v)

/-- RFC4648 base32 block encoding of a byte sequence into 5-bit values,
processing 5-byte groups into 8 values, with the standard remainder
groups (1,2,3,4 bytes give 2,4,5,7 values, zero-filled padding bits). -/
def encBlocks : List Nat → List Nat
  | [] => []
  | [b1] => [b1 / 8, b1 % 8 * 4]
  | [b1, b2] => [b1 / 8, b1 % 8 * 4 + b2 / 64, b2 % 64 / 2, b2 % 2 * 16]
  | [b1, b2, b3] =>
      [b1 / 8, b1 % 8 * 4 + b2 / 64, b2 % 64 / 2, b2 % 2 * 16 + b3 / 16,
       b3 % 16 * 2]
  | [b1, b2, b3, b4] =>
      [b1 / 8, b1 % 8 * 4 + b2 / 64, b2 % 64 / 2, b2 % 2 * 16 + b3 / 16,
       b3 % 16 * 2 + b4 / 128, b4 % 128 / 4, b4 % 4 * 8]
  | b1 :: b2 :: b3 :: b4 :: b5 :: rest =>
      b1 / 8 :: (b1 % 8 * 4 + b2 / 64) :: (b2 % 64 / 2) ::
      (b2 % 2 * 16 + b3 / 16) :: (b3 % 16 * 2 + b4 / 128) ::
      (b4 % 128 / 4) :: (b4 % 4 * 8 + b5 / 32) :: (b5 % 32) ::
      encBlocks rest

/-- RFC4648 base32 block decoding of 5-bit values back into bytes.
Fails on lengths that no byte sequence encodes to (remainders 1, 3, 6)
and on non-zero padding bits in the final value, so that no redundant
encodings are accepted. -/
def decBlocks : List Nat → Except String (List Nat)
  | [] => .ok []
  | [_] => .error "invalid base32 length"
  | [v1, v2] =>
      if v2 % 4 = 0 then .ok [v1 * 8 + v2 / 4]
      else .error "non-zero padding bits"
  | [_, _, _] => .error "invalid base32 length"
  | [v1, v2, v3, v4] =>
      if v4 % 16 = 0 then
        .ok [v1 * 8 + v2 / 4, v2 % 4 * 64 + v3 * 2 + v4 / 16]
      else .error "non-zero padding bits"
  | [v1, v2, v3, v4, v5] =>
      if v5 % 2 = 0 then
        .ok [v1 * 8 + v2 / 4, v2 % 4 * 64 + v3 * 2 + v4 / 16,
             v4 % 16 * 16 + v5 / 2]
      else .error "non-zero padding bits"
  | [_, _, _, _, _, _] => .error "invalid base32 length"
  | [v1, v2, v3, v4, v5, v6, v7] =>
      if v7 % 8 = 0 then
        .ok [v1 * 8 + v2 / 4, v2 % 4 * 64 + v3 * 2 + v4 / 16,
             v4 % 16 * 16 + v5 / 2, v5 % 2 * 128 + v6 * 4 + v7 / 8]
      else .error "non-zero padding bits"
  | v1 :: v2 :: v3 :: v4 :: v5 :: v6 :: v7 :: v8 :: rest =>
      match decBlocks rest with
      | .error e => .error e
      | .ok bs =>
          .ok ((v1 * 8 + v2 / 4) :: (v2 % 4 * 64 + v3 * 2 + v4 / 16) ::
               (v4 % 16 * 16 + v5 / 2) :: (v5 % 2 * 128 + v6 * 4 + v7 / 8) ::
               (v7 % 8 * 32 + v8) :: bs)

/-- `mapExcept f l` applies the fallible `f` to every element, failing on
the first error (shallow embedding of a decoding loop that throws). -/
def mapExcept (f : α → Except ε β) : List α → Except ε (List β)
  | [] => .ok []
  | a :: l =>
      match f a with
      | .error e => .error e
      | .ok b =>
          match mapExcept f l with
          | .error e => .error e
          | .ok bs => .ok (b :: bs)

/-- Lift `charToVal` into the decoding error monad. -/
def charToValE (c : Char) : Except String Nat :=
  match charToVal c with
  | some v => .ok v
  | none => .error "invalid base32 character"

/-- `encodeBufferToBase32`: tag character `'b'` followed by the base32
digits of the byte sequence. Modelled from the spec. -/
def encodeBufferToBase32 (buf : List Nat) : String :=
  String.mk ('b' :: (encBlocks buf).map valToChar)

/-- `decodeBase32ToBuffer`: requires and strips the `'b'` tag, maps the
remaining characters through the alphabet, and block-decodes. Modelled
from the spec. -/
def decodeBase32ToBuffer (s : String) : Except String (List Nat) :=
  match s.data with
  | [] => .error "cannot decode empty string"
  | t :: rest =>
      if t = 'b' then
        match mapExcept charToValE rest with
        | .error e => .error e
        | .ok vals => decBlocks vals
      else .error "missing or incorrect multibase tag"

/-- `isErr`: an `Except` value is an error (test helper from
`src/util/types.ts`, modelled from its use in the tests). -/
def isErr : Except ε α → Bool
  | .error _ => true
  | .ok _ => false

/-! ## UTF-8 encoding of text

`Buffer.byteLength(s, 'utf-8')` and `Buffer.from(s, 'utf8')` in the source
measure and produce the UTF-8 byte encoding of a string; embedded here as
an explicit encoder over the string's characters. -/

/-- The UTF-8 bytes of one character (1-4 bytes by codepoint range). -/
def charUtf8 (c : Char) : List Nat :=
  if c.toNat < 128 then [c.toNat]
  else if c.toNat < 2048 then [192 + c.toNat / 64, 128 + c.toNat % 64]
  else if c.toNat < 65536 then
    [224 + c.toNat / 4096, 128 + c.toNat / 64 % 64, 128 + c.toNat % 64]
  else
    [240 + c.toNat / 262144, 128 + c.toNat / 4096 % 64,
     128 + c.toNat / 64 % 64, 128 + c.toNat % 64]

/-- UTF-8 byte sequence of a string. -/
def utf8Encode (s : String) : List Nat := (s.data.map charUtf8).flatten

/-! ## Error type

Spec §7: `ValidationError` for malformed input and unsupported usage;
closed-index access fails fast (the source throws `StorageIsClosedError`
from `_assertNotClosed`, which lives in the absent `storageBase.ts`). -/

/-- Failure values of the embedded operations. -/
inductive Err where
  | validationError (msg : String)
  | storageIsClosed
deriving DecidableEq

/-! ## CryptoIdentity

Modelled from the spec: `src/crypto/crypto.ts` is not in the snapshot.
The underlying asymmetric scheme is embedded as an abstract deterministic
signature scheme over byte lists: the public key is derived injectively
from the secret key, signing deterministically combines the secret key
and the message, and verification checks that the signature is exactly
the one that `sign` with the address's matching private key would produce
over exactly that input (spec §4.2). Signing has no randomized nonce, so
determinism is definitional. -/

/-- Keypair as held by callers: encoded address and encoded secret. -/
structure AuthorKeypair where
  address : String
  secret : String
deriving DecidableEq

/-- A character is a lowercase ASCII letter. -/
def isLowerAlpha (c : Char) : Bool := 97 ≤ c.toNat && c.toNat ≤ 122

/-- Spec §4.2: shortname must be exactly 4 characters, all lowercase
ASCII letters. -/
def shortnameIsValid (s : String) : Bool :=
  s.data.length == 4 && s.data.all isLowerAlpha

/-- Modelled from the spec: derivation of the public key from the secret
key (used by `checkKeypairIsValid` per spec §4.2); any injective
derivation represents it. -/
def derivePubkey (sk : List Nat) : List Nat := 0 :: sk

/-- `generateAuthorKeypair(shortname)`; the randomness of key generation is
passed in as the raw secret-key bytes `sk`. On success the address is
`"@" + shortname + "." + encodedPubkey` and the secret the encoded
private key (spec §4.2). -/
def generateAuthorKeypair (shortname : String) (sk : List Nat) :
    Except Err AuthorKeypair :=
  if shortnameIsValid shortname then
    .ok ⟨"@" ++ shortname ++ "." ++ encodeBufferToBase32 (derivePubkey sk),
         encodeBufferToBase32 sk⟩
  else .error (.validationError
    "shortname must be exactly 4 lowercase ASCII letters")

/-- `sign`/`verify` accept the input as text or as raw bytes
(`string | Buffer` in the source). -/
inductive SignInput where
  | text (s : String)
  | bytes (l : List Nat)
deriving DecidableEq

/-- The byte sequence an input denotes: text is UTF-8 encoded, raw bytes
pass through. -/
def inputBytes : SignInput → List Nat
  | .text s => utf8Encode s
  | .bytes l => l

/-- Modelled from the spec: the deterministic signature over a message
with a secret key (length-prefixed so that distinct keys or distinct
messages give distinct signatures). -/
def rawSign (sk msg : List Nat) : List Nat := sk.length :: sk ++ msg

/-- Modelled from the spec: raw verification — true exactly when the
signature is the one `rawSign` produces with the private key matching
`pub` over exactly `msg`. -/
def rawVerify (pub sigBytes msg : List Nat) : Bool :=
  decide (pub = 0 :: pub.drop 1 ∧ sigBytes = rawSign (pub.drop 1) msg)

/-- `sign(keypair, input)`: decodes the secret, signs the input bytes,
encodes the signature as base32 text. -/
def sign (keypair : AuthorKeypair) (input : SignInput) : Except Err String :=
  match decodeBase32ToBuffer keypair.secret with
  | .error e => .error (.validationError e)
  | .ok sk => .ok (encodeBufferToBase32 (rawSign sk (inputBytes input)))

/-- Modelled from the spec: parsing an author address
`"@" + 4-lowercase-letter shortname + "." + base32(pubkey)` into the
public key; any deviation fails. -/
def parseAuthorAddress (address : String) : Option (List Nat) :=
  match address.data with
  | '@' :: c1 :: c2 :: c3 :: c4 :: '.' :: rest =>
      if isLowerAlpha c1 && isLowerAlpha c2 && isLowerAlpha c3 &&
         isLowerAlpha c4 then
        match decodeBase32ToBuffer (String.mk rest) with
        | .ok pub => some pub
        | .error _ => none
      else none
  | _ => none

/-- `verify(address, signature, input)`: total and `Bool`-valued — an
unparseable address, an undecodable signature, or a mismatched signature
all yield `false` (spec §4.2: never throws). -/
def verify (address : String) (sigStr : String) (input : SignInput) : Bool :=
  match parseAuthorAddress address with
  | none => false
  | some pub =>
      match decodeBase32ToBuffer sigStr with
      | .error _ => false
      | .ok sigBytes => rawVerify pub sigBytes (inputBytes input)

/-! ## Data model (spec §3, `src/util/types.ts` not in the snapshot) -/

/-- A stored document (immutable once stored). -/
structure Document where
  path : String
  contentHash : String
  content : String
  author : String
  timestamp : Nat
  deleteAfter : Option Nat
  signature : String
deriving DecidableEq

/-- A query; unset fields impose no constraint (spec §3). -/
structure Query where
  path : Option String := none
  pathStartsWith : Option String := none
  author : Option String := none
  timestamp : Option Nat := none
  timestampGt : Option Nat := none
  timestampLt : Option Nat := none
  contentLength : Option Nat := none
  contentLengthGt : Option Nat := none
  contentLengthLt : Option Nat := none
  continueAfter : Option (String × String) := none
  history : Option String := none
  limit : Option Nat := none
  limitBytes : Option Nat := none
deriving DecidableEq

/-! ## String ordering and prefix helpers

JS compares strings with `<`/`>` (lexicographic by code unit) and tests
prefixes with `String.prototype.startsWith`; both are embedded as
computable functions over the character sequence. -/

/-- Lexicographic strict order on character sequences by codepoint. -/
def listCharLt : List Char → List Char → Bool
  | [], [] => false
  | [], _ :: _ => true
  | _ :: _, [] => false
  | a :: as, b :: bs =>
      if a.toNat < b.toNat then true
      else if b.toNat < a.toNat then false
      else listCharLt as bs

/-- JS `a < b` on strings. -/
def strLt (a b : String) : Bool := listCharLt a.data b.data

/-- JS `a <= b` on strings. -/
def strLe (a b : String) : Bool := !strLt b a

/-- The first list is a prefix of the second. -/
def listIsPrefixOf : List Char → List Char → Bool
  | [], _ => true
  | _ :: _, [] => false
  | a :: as, b :: bs => a == b && listIsPrefixOf as bs

/-- JS `s.startsWith(pre)`. -/
def strStartsWith (s pre : String) : Bool := listIsPrefixOf pre.data s.data

/-- Path sort order used for `pathsToConsider.sort()` (plain JS sort on
strings). -/
def strLeRel (a b : String) : Prop := strLe a b = true

instance : DecidableRel strLeRel := fun a b => by
  unfold strLeRel
  infer_instance

/-! ## QueryEngine

Modelled from the spec: `src/storage/query.ts` is not in the snapshot.
Spec §4.3 specifies `cleanUpQuery` (normalize), `queryMatchesDoc`
(matches), `documentIsExpired` (isExpired), `sortLatestFirst`
(latestFirst) and `sortPathAscAuthorAsc` (pathAscAuthorAsc). -/

/-- Modelled from the spec: "fills `history` default to `"all"`; leaves
unset numeric bounds unset; must be a no-op on an already-normalized
query." -/
def cleanUpQuery (q : Query) : Query :=
  { q with history := some (q.history.getD "all") }

/-- Modelled from the spec: "true iff `doc.deleteAfter` is set and
`now > doc.deleteAfter`." -/
def documentIsExpired (doc : Document) (now : Nat) : Bool :=
  match doc.deleteAfter with
  | none => false
  | some t => decide (now > t)

/-- Modelled from the spec: "conjunction of all set predicates — exact
path, prefix match, exact author, timestamp bounds, content length
bounds, pagination cursor ordering. All unset predicates vacuously
pass." -/
def queryMatchesDoc (query : Query) (doc : Document) : Bool :=
  (match query.path with | none => true | some p => doc.path == p) &&
  (match query.pathStartsWith with
   | none => true | some pre => strStartsWith doc.path pre) &&
  (match query.author with | none => true | some a => doc.author == a) &&
  (match query.timestamp with
   | none => true | some t => doc.timestamp == t) &&
  (match query.timestampGt with
   | none => true | some t => decide (doc.timestamp > t)) &&
  (match query.timestampLt with
   | none => true | some t => decide (doc.timestamp < t)) &&
  (match query.contentLength with
   | none => true | some n => doc.content.length == n) &&
  (match query.contentLengthGt with
   | none => true | some n => decide (doc.content.length > n)) &&
  (match query.contentLengthLt with
   | none => true | some n => decide (doc.content.length < n)) &&
  (match query.continueAfter with
   | none => true
   | some cursor =>
       strLt cursor.1 doc.path ||
       (cursor.1 == doc.path && strLt cursor.2 doc.author))

/-- Modelled from the spec: `latestFirst` — "primary key = `timestamp`
descending; tie-break = `signature` string descending (lexicographic)".
`latestFirstB a b` is true when `a` sorts no later than `b`. -/
def latestFirstB (a b : Document) : Bool :=
  if b.timestamp < a.timestamp then true
  else if a.timestamp < b.timestamp then false
  else strLe b.signature a.signature

/-- `latestFirst` as a sorting relation: `a` sorts no later than `b`. -/
def latestFirst (a b : Document) : Prop := latestFirstB a b = true

instance : DecidableRel latestFirst := fun a b => by
  unfold latestFirst
  infer_instance

/-- Modelled from the spec: `pathAscAuthorAsc` — "primary key `path`
ascending, secondary `author` ascending". -/
def pathAscAuthorAscB (a b : Document) : Bool :=
  if strLt a.path b.path then true
  else if strLt b.path a.path then false
  else strLe a.author b.author

/-- `pathAscAuthorAsc` as a sorting relation. -/
def pathAscAuthorAsc (a b : Document) : Prop := pathAscAuthorAscB a b = true

instance : DecidableRel pathAscAuthorAsc := fun a b => by
  unfold pathAscAuthorAsc
  infer_instance

/-! ## StorageMemory (`src/storage/storageMemory.ts`)

The two-level index `{ path: { author: document } }` is embedded as an
association list preserving JS object insertion order; `Object.keys` /
`Object.values` become projections. The closed flag and the overridable
test clock `_now` live in the absent `storageBase.ts` and are modelled
from the spec (`_assertNotClosed` throws when closed; `now` defaults to
wall-clock time, here an explicit `wallNow` argument). JS `sort` is
stable; it is embedded as insertion sort, which is also stable. -/

/-- The in-memory store state. -/
structure StorageMemory where
  _docs : List (String × List (String × Document)) := []
  _config : List (String × String) := []
  _isClosed : Bool := false
  _now : Option Nat := none
deriving DecidableEq

/-- JS object update: overwrite in place when the key exists (keeping
its position), append otherwise. -/
def alSet (k : String) (v : α) : List (String × α) → List (String × α)
  | [] => [(k, v)]
  | entry :: rest =>
      if entry.1 = k then (k, v) :: rest else entry :: alSet k v rest

/-- `this._now || Date.now() * 1000` (line 53). -/
def nowOf (st : StorageMemory) (wallNow : Nat) : Nat := st._now.getD wallNow

/-- Lines 96-105: select by history — `"latest"` keeps only the first
document under `sortLatestFirst`; `"all"` keeps every version; anything
else throws a ValidationError. -/
def selectHistory (query : Query) (docsThisPath : List Document) :
    Except Err (List Document) :=
  match query.history with
  | some "latest" =>
      .ok (List.insertionSort latestFirst docsThisPath).head?.toList
  | some "all" => .ok docsThisPath
  | _ => .error (.validationError "unexpected query.history value")

/-- Line 111: keep documents that match the query and are not expired. -/
def keepDoc (query : Query) (now : Nat) (doc : Document) : Bool :=
  queryMatchesDoc query doc &&
    (match doc.deleteAfter with
     | none => true
     | some t => decide (now ≤ t))

/-- Lines 80-84: skip paths lexicographically before the prefix. -/
def skipPath (query : Query) (path : String) : Bool :=
  match query.pathStartsWith with
  | none => false
  | some pre => !strStartsWith path pre && strLt path pre

/-- Lines 85-88: stop once past the end of the prefix range. -/
def breakPath (query : Query) (path : String) : Bool :=
  match query.pathStartsWith with
  | none => false
  | some pre => !strStartsWith path pre && !strLt path pre

/-- Lines 116-120: stop when `limit` documents have been collected. -/
def breakLimit (query : Query) (results : List Document) : Bool :=
  match query.limit with
  | none => false
  | some l => decide (results.length ≥ l)

/-- Lines 92-114: process one path — history selection then the match
and expiration filter, appending survivors to the accumulator. -/
def processPath (query : Query) (now : Nat)
    (docs : List (String × List (String × Document))) (path : String)
    (results : List Document) : Except Err (List Document) :=
  match selectHistory query (((docs.lookup path).getD []).map Prod.snd) with
  | .error e => .error e
  | .ok selected => .ok (results ++ selected.filter (keepDoc query now))

/-- Lines 73-121: the scan over candidate paths with the prefix-skip,
prefix-break and limit-break optimizations. -/
def docsLoop (query : Query) (now : Nat)
    (docs : List (String × List (String × Document))) :
    List String → List Document → Except Err (List Document)
  | [], results => .ok results
  | path :: restPaths, results =>
      if skipPath query path then docsLoop query now docs restPaths results
      else if breakPath query path then .ok results
      else
        match processPath query now docs path results with
        | .error e => .error e
        | .ok nextResults =>
            if breakLimit query nextResults then .ok nextResults
            else docsLoop query now docs restPaths nextResults

/-- Lines 131-147: accumulate UTF-8 content byte lengths and truncate at
the first document whose inclusion exceeds the byte budget, excluding a
zero-length document that lands exactly on the boundary. -/
def truncateBytes (limitBytes : Nat) : Nat → List Document → List Document
  | _, [] => []
  | bytes, doc :: rest =>
      let len := (utf8Encode doc.content).length
      if bytes + len > limitBytes || (bytes + len == limitBytes && len == 0)
      then []
      else doc :: truncateBytes limitBytes (bytes + len) rest

/-- Lines 66-147 of `documents`: sort the candidate paths when the
prefix or limit optimization applies, run the scan, then the final
`pathAscAuthorAsc` sort, the `limit` slice and the `limitBytes`
truncation. -/
def documentsScan (query : Query) (now : Nat) (st : StorageMemory)
    (paths0 : List String) : Except Err (List Document) :=
  let paths :=
    if query.pathStartsWith.isSome || query.limit.isSome
    then List.insertionSort strLeRel paths0
    else paths0
  match docsLoop query now st._docs paths [] with
  | .error e => .error e
  | .ok results =>
      let sorted := List.insertionSort pathAscAuthorAsc results
      let limited :=
        match query.limit with
        | some l => sorted.take l
        | none => sorted
      let final :=
        match query.limitBytes with
        | some lb => truncateBytes lb 0 limited
        | none => limited
      .ok final

/-- `StorageMemory.documents` (lines 47-150): the read operation. -/
def documents (st : StorageMemory) (wallNow : Nat) (q : Query) :
    Except Err (List Document) :=
  if st._isClosed then .error .storageIsClosed
  else
    let query := cleanUpQuery q
    if query.limit == some 0 || query.limitBytes == some 0 then .ok []
    else
      let now := nowOf st wallNow
      match query.path with
      | some p =>
          if (st._docs.lookup p).isNone then .ok []
          else documentsScan query now st [p]
      | none => documentsScan query now st (st._docs.map Prod.fst)

/-- `StorageMemory._upsertDocument` (lines 152-158). -/
def upsertDocument (st : StorageMemory) (doc : Document) :
    Except Err StorageMemory :=
  if st._isClosed then .error .storageIsClosed
  else
    let slots := (st._docs.lookup doc.path).getD []
    .ok { st with _docs := alSet doc.path (alSet doc.author doc slots)
                            st._docs }

/-- `StorageMemory._filterDocs` (lines 160-178): delete documents failing
the predicate, removing now-empty path entries. -/
def filterDocs (st : StorageMemory) (shouldKeep : Document → Bool) :
    Except Err StorageMemory :=
  if st._isClosed then .error .storageIsClosed
  else
    let filtered := st._docs.map
      (fun entry => (entry.1, entry.2.filter (fun slot => shouldKeep slot.2)))
    .ok { st with _docs := filtered.filter (fun entry => !entry.2.isEmpty) }

/-- `StorageMemory.forgetDocuments` (lines 180-188). -/
def forgetDocuments (st : StorageMemory) (q : Query) :
    Except Err StorageMemory :=
  if st._isClosed then .error .storageIsClosed
  else
    let query := cleanUpQuery q
    if query.limit == some 0 || query.limitBytes == some 0 then .ok st
    else if query.history != some "all" then
      .error (.validationError
        "forgetDocuments can only be called with history: all")
    else filterDocs st (fun doc => !queryMatchesDoc query doc)

/-- `StorageMemory.discardExpiredDocuments` (lines 190-194). -/
def discardExpiredDocuments (st : StorageMemory) (wallNow : Nat) :
    Except Err StorageMemory :=
  if st._isClosed then .error .storageIsClosed
  else filterDocs st (fun doc => !documentIsExpired doc (nowOf st wallNow))

/-- `StorageMemory.setConfig` (lines 34-36): note — no closed-state
check in the source. The `Except` return type is shared with the other
operations so that failing fast is statable; this operation always
succeeds. -/
def setConfig (st : StorageMemory) (key content : String) :
    Except Err StorageMemory :=
  .ok { st with _config := alSet key content st._config }

/-- `StorageMemory.getConfig` (lines 37-39): no closed-state check. -/
def getConfig (st : StorageMemory) (key : String) :
    Except Err (Option String) :=
  .ok (st._config.lookup key)

/-- `StorageMemory.deleteConfig` (lines 40-42): no closed-state check. -/
def deleteConfig (st : StorageMemory) (key : String) :
    Except Err StorageMemory :=
  .ok { st with _config := st._config.filter (fun entry => entry.1 != key) }

/-- `StorageMemory.deleteAllConfig` (lines 43-45): no closed-state
check. -/
def deleteAllConfig (st : StorageMemory) : Except Err StorageMemory :=
  .ok { st with _config := [] }

/-- `close` then `_close` (lines 196-201): modelled from the spec for
the closed flag (set in the absent `storageBase.ts`), with `_close`
clearing the index and config as in the source. -/
def closeStorage (st : StorageMemory) : StorageMemory :=
  { st with _isClosed := true, _docs := [], _config := [] }

/-- Well-formedness of a store as maintained by JS `Record`s and the
mutation primitives: object keys are unique, path entries are nonempty,
and a document is stored under its own path and author. -/
def StorageWf (st : StorageMemory) : Prop :=
  (st._docs.map Prod.fst).Nodup ∧
  ∀ entry ∈ st._docs,
    (entry.2.map Prod.fst).Nodup ∧ entry.2 ≠ [] ∧
    ∀ slot ∈ entry.2, slot.2.path = entry.1 ∧ slot.2.author = slot.1

instance (st : StorageMemory) : Decidable (StorageWf st) := by
  unfold StorageWf
  infer_instance

/-- All versions stored at a path (`Object.values(this._docs[path])`). -/
def docsAtPath (st : StorageMemory) (p : String) : List Document :=
  ((st._docs.lookup p).getD []).map Prod.snd

/-- The document stored for `(path, author)`, if any. -/
def slotOf (st : StorageMemory) (p a : String) : Option Document :=
  ((st._docs.lookup p).getD []).lookup a

/-- UTF-8 byte length of a document content
(`Buffer.byteLength(doc.content, 'utf-8')`, line 138). -/
def docByteLen (doc : Document) : Nat := (utf8Encode doc.content).length

/-- Total content byte length of a result list. -/
def byteSum (docs : List Document) : Nat := (docs.map docByteLen).sum

/-- The documents a `history: "latest"` scan retains at one path: the
`latestFirst` winner, if any, filtered by match and expiration. -/
def keptAtPathLatest (query : Query) (now : Nat)
    (docs : List (String × List (String × Document))) (path : String) :
    List Document :=
  ((List.insertionSort latestFirst
      (((docs.lookup path).getD []).map Prod.snd)).head?.toList).filter
    (keepDoc query now)

deriving instance DecidableEq for Except

/-! ## Sample documents and stores for concrete witnesses -/

/-- Sample document at `/a` with 3-byte content (one 3-byte character). -/
def docA : Document := ⟨"/a", "bh1", "☃", "@auth.bkey", 100, none, "bsiga"⟩

/-- Sample document at `/b` with empty content. -/
def docB : Document := ⟨"/b", "bh2", "", "@auth.bkey", 100, none, "bsigb"⟩

/-- Sample document at `/c` with 5-byte content. -/
def docC : Document := ⟨"/c", "bh3", "abcde", "@auth.bkey", 100, none, "bsigc"⟩

/-- Store with three documents of content byte lengths 3, 0, 5. -/
def st305 : StorageMemory :=
  ⟨[("/a", [("@auth.bkey", docA)]), ("/b", [("@auth.bkey", docB)]),
    ("/c", [("@auth.bkey", docC)])], [], false, none⟩

/-- Older version at `/p` by author `@aaaa`. -/
def docP1 : Document := ⟨"/p", "bh4", "one", "@aaaa.bkey", 100, none, "bsig1"⟩

/-- Newer version at `/p` by author `@bbbb`. -/
def docP2 : Document := ⟨"/p", "bh5", "two", "@bbbb.bkey", 200, none, "bsig2"⟩

/-- Store with two versions of one path. -/
def stP : StorageMemory :=
  ⟨[("/p", [("@aaaa.bkey", docP1), ("@bbbb.bkey", docP2)])], [], false, none⟩

/-! ## Codec lemmas -/

theorem charToVal_valToChar : ∀ v : Nat, v < 32 →
    charToVal (valToChar v) = some v := by
  decide

theorem charToVal_some {c : Char} {v : Nat} (h : charToVal c = some v) :
    v < 32 ∧ valToChar v = c := by
  unfold charToVal at h
  split at h
  · rename_i h1
    simp only [Option.some.injEq] at h
    subst h
    refine ⟨by omega, ?_⟩
    unfold valToChar
    rw [if_pos (by omega)]
    have he : 97 + (c.toNat - 97) = c.toNat := by omega
    rw [he]
    exact Char.ofNat_toNat c
  · split at h
    · rename_i h1 h2
      simp only [Option.some.injEq] at h
      subst h
      refine ⟨by omega, ?_⟩
      unfold valToChar
      rw [if_neg (by omega)]
      have he : 24 + (c.toNat - 24) = c.toNat := by omega
      rw [he]
      exact Char.ofNat_toNat c
    · exact absurd h (by simp)

theorem encBlocks_lt {buf : List Nat} (h : ∀ b ∈ buf, b < 256) :
    ∀ v ∈ encBlocks buf, v < 32 := by
  induction buf using encBlocks.induct with
  | case1 => simp [encBlocks]
  | case2 b1 =>
      intro v hv
      have h1 := h b1 (by simp)
      simp only [encBlocks, List.mem_cons, List.not_mem_nil, or_false] at hv
      rcases hv with rfl | rfl <;> omega
  | case3 b1 b2 =>
      intro v hv
      have h1 := h b1 (by simp)
      have h2 := h b2 (by simp)
      simp only [encBlocks, List.mem_cons, List.not_mem_nil, or_false] at hv
      rcases hv with rfl | rfl | rfl | rfl <;> omega
  | case4 b1 b2 b3 =>
      intro v hv
      have h1 := h b1 (by simp)
      have h2 := h b2 (by simp)
      have h3 := h b3 (by simp)
      simp only [encBlocks, List.mem_cons, List.not_mem_nil, or_false] at hv
      rcases hv with rfl | rfl | rfl | rfl | rfl <;> omega
  | case5 b1 b2 b3 b4 =>
      intro v hv
      have h1 := h b1 (by simp)
      have h2 := h b2 (by simp)
      have h3 := h b3 (by simp)
      have h4 := h b4 (by simp)
      simp only [encBlocks, List.mem_cons, List.not_mem_nil, or_false] at hv
      rcases hv with rfl | rfl | rfl | rfl | rfl | rfl | rfl <;> omega
  | case6 b1 b2 b3 b4 b5 rest ih =>
      intro v hv
      have h1 := h b1 (by simp)
      have h2 := h b2 (by simp)
      have h3 := h b3 (by simp)
      have h4 := h b4 (by simp)
      have h5 := h b5 (by simp)
      have hrest : ∀ b ∈ rest, b < 256 := fun b hb => h b (by simp [hb])
      simp only [encBlocks, List.mem_cons] at hv
      rcases hv with rfl | rfl | rfl | rfl | rfl | rfl | rfl | rfl | hm <;>
        first | omega | exact ih hrest v hm

theorem decBlocks_encBlocks {buf : List Nat} (h : ∀ b ∈ buf, b < 256) :
    decBlocks (encBlocks buf) = .ok buf := by
  induction buf using encBlocks.induct with
  | case1 => rfl
  | case2 b1 =>
      have h1 := h b1 (by simp)
      simp only [encBlocks, decBlocks]
      rw [if_pos (by omega)]
      congr 1
      simp only [List.cons.injEq, and_true]
      omega
  | case3 b1 b2 =>
      have h1 := h b1 (by simp)
      have h2 := h b2 (by simp)
      simp only [encBlocks, decBlocks]
      rw [if_pos (by omega)]
      congr 1
      simp only [List.cons.injEq, and_true]
      omega
  | case4 b1 b2 b3 =>
      have h1 := h b1 (by simp)
      have h2 := h b2 (by simp)
      have h3 := h b3 (by simp)
      simp only [encBlocks, decBlocks]
      rw [if_pos (by omega)]
      congr 1
      simp only [List.cons.injEq, and_true]
      omega
  | case5 b1 b2 b3 b4 =>
      have h1 := h b1 (by simp)
      have h2 := h b2 (by simp)
      have h3 := h b3 (by simp)
      have h4 := h b4 (by simp)
      simp only [encBlocks, decBlocks]
      rw [if_pos (by omega)]
      congr 1
      simp only [List.cons.injEq, and_true]
      omega
  | case6 b1 b2 b3 b4 b5 rest ih =>
      have h1 := h b1 (by simp)
      have h2 := h b2 (by simp)
      have h3 := h b3 (by simp)
      have h4 := h b4 (by simp)
      have h5 := h b5 (by simp)
      have hrest : ∀ b ∈ rest, b < 256 := fun b hb => h b (by simp [hb])
      simp only [encBlocks, decBlocks, ih hrest]
      congr 1
      simp only [List.cons.injEq, and_true]
      omega

theorem decBlocks_ok : ∀ (vals bs : List Nat), decBlocks vals = .ok bs →
    (∀ v ∈ vals, v < 32) → encBlocks bs = vals ∧ ∀ b ∈ bs, b < 256
  | [], bs, h, _ => by
      simp only [decBlocks, Except.ok.injEq] at h
      subst h
      exact ⟨rfl, by simp⟩
  | [v1], bs, h, _ => by
      exact absurd h (by simp [decBlocks])
  | [v1, v2], bs, h, hv => by
      have h1 := hv v1 (by simp)
      have h2 := hv v2 (by simp)
      simp only [decBlocks] at h
      split at h
      · rename_i hpad
        simp only [Except.ok.injEq] at h
        subst h
        refine ⟨?_, ?_⟩
        · simp only [encBlocks, List.cons.injEq, and_true]
          omega
        · intro b hb
          simp only [List.mem_cons, List.not_mem_nil, or_false] at hb
          subst hb
          omega
      · exact absurd h (by simp)
  | [v1, v2, v3], bs, h, _ => by
      exact absurd h (by simp [decBlocks])
  | [v1, v2, v3, v4], bs, h, hv => by
      have h1 := hv v1 (by simp)
      have h2 := hv v2 (by simp)
      have h3 := hv v3 (by simp)
      have h4 := hv v4 (by simp)
      simp only [decBlocks] at h
      split at h
      · rename_i hpad
        simp only [Except.ok.injEq] at h
        subst h
        refine ⟨?_, ?_⟩
        · simp only [encBlocks, List.cons.injEq, and_true]
          omega
        · intro b hb
          simp only [List.mem_cons, List.not_mem_nil, or_false] at hb
          rcases hb with rfl | rfl <;> omega
      · exact absurd h (by simp)
  | [v1, v2, v3, v4, v5], bs, h, hv => by
      have h1 := hv v1 (by simp)
      have h2 := hv v2 (by simp)
      have h3 := hv v3 (by simp)
      have h4 := hv v4 (by simp)
      have h5 := hv v5 (by simp)
      simp only [decBlocks] at h
      split at h
      · rename_i hpad
        simp only [Except.ok.injEq] at h
        subst h
        refine ⟨?_, ?_⟩
        · simp only [encBlocks, List.cons.injEq, and_true]
          omega
        · intro b hb
          simp only [List.mem_cons, List.not_mem_nil, or_false] at hb
          rcases hb with rfl | rfl | rfl <;> omega
      · exact absurd h (by simp)
  | [v1, v2, v3, v4, v5, v6], bs, h, _ => by
      exact absurd h (by simp [decBlocks])
  | [v1, v2, v3, v4, v5, v6, v7], bs, h, hv => by
      have h1 := hv v1 (by simp)
      have h2 := hv v2 (by simp)
      have h3 := hv v3 (by simp)
      have h4 := hv v4 (by simp)
      have h5 := hv v5 (by simp)
      have h6 := hv v6 (by simp)
      have h7 := hv v7 (by simp)
      simp only [decBlocks] at h
      split at h
      · rename_i hpad
        simp only [Except.ok.injEq] at h
        subst h
        refine ⟨?_, ?_⟩
        · simp only [encBlocks, List.cons.injEq, and_true]
          omega
        · intro b hb
          simp only [List.mem_cons, List.not_mem_nil, or_false] at hb
          rcases hb with rfl | rfl | rfl | rfl <;> omega
      · exact absurd h (by simp)
  | v1 :: v2 :: v3 :: v4 :: v5 :: v6 :: v7 :: v8 :: rest, bs, h, hv => by
      have h1 := hv v1 (by simp)
      have h2 := hv v2 (by simp)
      have h3 := hv v3 (by simp)
      have h4 := hv v4 (by simp)
      have h5 := hv v5 (by simp)
      have h6 := hv v6 (by simp)
      have h7 := hv v7 (by simp)
      have h8 := hv v8 (by simp)
      have hvrest : ∀ v ∈ rest, v < 32 := fun v hvm => hv v (by simp [hvm])
      simp only [decBlocks] at h
      split at h
      · exact absurd h (by simp)
      · rename_i bs2 hrest
        simp only [Except.ok.injEq] at h
        subst h
        obtain ⟨ihe, ihb⟩ := decBlocks_ok rest bs2 hrest hvrest
        refine ⟨?_, ?_⟩
        · simp only [encBlocks, List.cons.injEq, ihe, and_true]
          omega
        · intro b hb
          simp only [List.mem_cons] at hb
          rcases hb with rfl | rfl | rfl | rfl | rfl | hb2 <;>
            first | omega | exact ihb b hb2

theorem mapExcept_map_valToChar : ∀ (l : List Nat), (∀ v ∈ l, v < 32) →
    mapExcept charToValE (l.map valToChar) = .ok l
  | [], _ => rfl
  | v :: l, h => by
      have hv := h v (by simp)
      have hc : charToValE (valToChar v) = .ok v := by
        unfold charToValE
        rw [charToVal_valToChar v hv]
      have ih := mapExcept_map_valToChar l (fun x hx => h x (by simp [hx]))
      simp only [List.map_cons, mapExcept, hc, ih]

theorem mapExcept_charToValE_ok : ∀ {l : List Char} {vs : List Nat},
    mapExcept charToValE l = .ok vs →
    l = vs.map valToChar ∧ ∀ v ∈ vs, v < 32
  | [], vs, h => by
      simp only [mapExcept, Except.ok.injEq] at h
      subst h
      exact ⟨rfl, by simp⟩
  | a :: l, vs, h => by
      simp only [mapExcept] at h
      split at h
      · exact absurd h (by simp)
      · rename_i b hb
        split at h
        · exact absurd h (by simp)
        · rename_i bs hbs
          simp only [Except.ok.injEq] at h
          subst h
          obtain ⟨ihl, ihb⟩ := mapExcept_charToValE_ok hbs
          have hcb : charToVal a = some b := by
            unfold charToValE at hb
            split at hb
            · rename_i v hvv
              simp only [Except.ok.injEq] at hb
              subst hb
              exact hvv
            · exact absurd hb (by simp)
          obtain ⟨hblt, hba⟩ := charToVal_some hcb
          refine ⟨?_, ?_⟩
          · simp only [List.map_cons, hba, ihl.symm]
          · intro v hv
            simp only [List.mem_cons] at hv
            rcases hv with rfl | hv2
            · exact hblt
            · exact ihb v hv2

theorem decode_encode (buf : List Nat) (h : ∀ b ∈ buf, b < 256) :
    decodeBase32ToBuffer (encodeBufferToBase32 buf) = .ok buf := by
  have hvals : ∀ v ∈ encBlocks buf, v < 32 := encBlocks_lt h
  have hmap := mapExcept_map_valToChar (encBlocks buf) hvals
  show decodeBase32ToBuffer
    (String.mk ('b' :: (encBlocks buf).map valToChar)) = .ok buf
  unfold decodeBase32ToBuffer
  simp only [if_pos rfl, hmap]
  exact decBlocks_encBlocks h

theorem encode_decode : ∀ (s : String) (buf : List Nat),
    decodeBase32ToBuffer s = .ok buf → encodeBufferToBase32 buf = s := by
  intro ⟨sd⟩ buf h
  unfold decodeBase32ToBuffer at h
  match sd, h with
  | [], h => exact absurd h (by simp)
  | t :: rest, h => ?_
  simp only at h
  split at h
  · rename_i ht
    subst ht
    split at h
    · exact absurd h (by simp)
    · rename_i vals hvals
      obtain ⟨hrest, hlt⟩ := mapExcept_charToValE_ok hvals
      obtain ⟨henc, _⟩ := decBlocks_ok vals buf h hlt
      unfold encodeBufferToBase32
      rw [henc, hrest.symm]
  · exact absurd h (by simp)

theorem decode_lt {s : String} {buf : List Nat}
    (h : decodeBase32ToBuffer s = .ok buf) : ∀ b ∈ buf, b < 256 := by
  obtain ⟨sd⟩ := s
  unfold decodeBase32ToBuffer at h
  match sd, h with
  | [], h => exact absurd h (by simp)
  | t :: rest, h => ?_
  simp only at h
  split at h
  · split at h
    · exact absurd h (by simp)
    · rename_i vals hvals
      obtain ⟨_, hlt⟩ := mapExcept_charToValE_ok hvals
      exact (decBlocks_ok vals buf h hlt).2
  · exact absurd h (by simp)


/-! ## Claim C5: codec round-trip laws -/

/-- C5: the base32 codec satisfies the round-trip laws — decoding an
encoding returns the original bytes, any successfully decoded text is
re-encoded to exactly itself (no redundant encodings), and the literal
edge cases hold: `encode [] = "b"`, `decode "b" = []`,
`decode "baa" = [0]`. -/
theorem base32_roundtrip :
    (∀ buf : List Nat, (∀ b ∈ buf, b < 256) →
      decodeBase32ToBuffer (encodeBufferToBase32 buf) = .ok buf) ∧
    (∀ (s : String) (buf : List Nat), decodeBase32ToBuffer s = .ok buf →
      encodeBufferToBase32 buf = s) ∧
    encodeBufferToBase32 [] = "b" ∧
    decodeBase32ToBuffer "b" = .ok [] ∧
    decodeBase32ToBuffer "baa" = .ok [0] :=
  ⟨decode_encode, encode_decode, rfl, rfl, rfl⟩

/-- Witness for C5 at concrete inputs. -/
theorem base32_roundtrip_witness :
    decodeBase32ToBuffer (encodeBufferToBase32 [1, 2, 3, 4, 5]) =
      .ok [1, 2, 3, 4, 5] ∧
    encodeBufferToBase32 [0] = "baa" :=
  ⟨base32_roundtrip.1 [1, 2, 3, 4, 5] (by decide),
   base32_roundtrip.2.1 "baa" [0] rfl⟩

/-! ## Claim C6: codec rejects malformed input -/

theorem mapExcept_error_mem {f : α → Except ε β} :
    ∀ (pre : List α) (c : α) (post : List α) (e : ε), f c = .error e →
    ∃ e2, mapExcept f (pre ++ c :: post) = .error e2
  | [], c, post, e, h => by
      simp only [List.nil_append, mapExcept, h]
      exact ⟨e, rfl⟩
  | a :: pre, c, post, e, h => by
      simp only [List.cons_append, mapExcept]
      obtain ⟨e2, h2⟩ := mapExcept_error_mem pre c post e h
      cases ha : f a with
      | error e3 =>
          simp only [ha]
          exact ⟨e3, rfl⟩
      | ok b =>
          simp only [ha, List.append_eq, h2]
          exact ⟨e2, rfl⟩

/-- C6: base32 decoding fails with an error on every malformed input:
any string not starting with the `'b'` tag (including the empty string
and a different multibase tag), any character outside the lowercase
`a`-`z` `2`-`7` alphabet anywhere after the tag (uppercase, digits
outside `2`-`7`, punctuation, whitespace, newlines), and alphabet-valid
strings with an invalid length or non-zero trailing padding bits. -/
theorem base32_decode_rejects_malformed :
    (∀ s : String, s.data.head? ≠ some 'b' →
      isErr (decodeBase32ToBuffer s) = true) ∧
    (∀ (pre post : List Char) (c : Char), charToVal c = none →
      isErr (decodeBase32ToBuffer (String.mk ('b' :: (pre ++ c :: post)))) =
        true) ∧
    isErr (decodeBase32ToBuffer "") = true ∧
    isErr (decodeBase32ToBuffer "abc") = true ∧
    isErr (decodeBase32ToBuffer "BABC") = true ∧
    isErr (decodeBase32ToBuffer "baA") = true ∧
    isErr (decodeBase32ToBuffer "b123") = true ∧
    isErr (decodeBase32ToBuffer "b???") = true ∧
    isErr (decodeBase32ToBuffer "babc xyz") = true ∧
    isErr (decodeBase32ToBuffer "b abcxyz") = true ∧
    isErr (decodeBase32ToBuffer "babcxyz\n") = true ∧
    isErr (decodeBase32ToBuffer "b11") = true ∧
    isErr (decodeBase32ToBuffer "bb") = true ∧
    isErr (decodeBase32ToBuffer "bab") = true := by
  refine ⟨?_, ?_, by decide, by decide, by decide, by decide, by decide,
    by decide, by decide, by decide, by decide, by decide, by decide,
    by decide⟩
  · intro ⟨sd⟩ hs
    unfold decodeBase32ToBuffer
    match sd, hs with
    | [], _ => rfl
    | t :: rest, hs => ?_
    simp only [List.head?] at hs
    simp only []
    rw [if_neg (by intro hc; exact hs (by rw [hc]))]
    rfl
  · intro pre post c hc
    have he : charToValE c = .error "invalid base32 character" := by
      unfold charToValE
      rw [hc]
    obtain ⟨e2, h2⟩ := mapExcept_error_mem pre c post _ he
    unfold decodeBase32ToBuffer
    simp only [if_pos rfl, h2]
    rfl

/-- Witness for C6 at concrete inputs. -/
theorem base32_decode_rejects_malformed_witness :
    isErr (decodeBase32ToBuffer "abc") = true ∧
    isErr (decodeBase32ToBuffer (String.mk
      ('b' :: (['a'] ++ 'A' :: [])))) = true :=
  ⟨base32_decode_rejects_malformed.1 "abc" (by decide),
   base32_decode_rejects_malformed.2.1 ['a'] [] 'A' (by decide)⟩

/-! ## Crypto layer lemmas and claims C7, C8, C9 -/

theorem char_toNat_lt (c : Char) : c.toNat < 1114112 := by
  have h := c.valid
  unfold UInt32.isValidChar Nat.isValidChar at h
  rcases h with h | ⟨h1, h2⟩ <;> simp [Char.toNat] at * <;> omega

theorem charUtf8_lt (c : Char) : ∀ b ∈ charUtf8 c, b < 256 := by
  have h := char_toNat_lt c
  unfold charUtf8
  split
  · intro b hb
    simp only [List.mem_cons, List.not_mem_nil, or_false] at hb
    subst hb
    omega
  · split
    · intro b hb
      simp only [List.mem_cons, List.not_mem_nil, or_false] at hb
      rcases hb with rfl | rfl <;> omega
    · split
      · intro b hb
        simp only [List.mem_cons, List.not_mem_nil, or_false] at hb
        rcases hb with rfl | rfl | rfl <;> omega
      · intro b hb
        simp only [List.mem_cons, List.not_mem_nil, or_false] at hb
        rcases hb with rfl | rfl | rfl | rfl <;> omega

theorem utf8Encode_lt (s : String) : ∀ b ∈ utf8Encode s, b < 256 := by
  intro b hb
  unfold utf8Encode at hb
  simp only [List.mem_flatten, List.mem_map] at hb
  obtain ⟨l, ⟨c, _, rfl⟩, hbl⟩ := hb
  exact charUtf8_lt c b hbl

theorem rawSign_lt {sk msg : List Nat} (hl : sk.length < 256)
    (hsk : ∀ b ∈ sk, b < 256) (hm : ∀ b ∈ msg, b < 256) :
    ∀ b ∈ rawSign sk msg, b < 256 := by
  intro b hb
  unfold rawSign at hb
  simp only [List.mem_cons, List.mem_append] at hb
  rcases hb with (rfl | hb) | hb
  · exact hl
  · exact hsk b hb
  · exact hm b hb

theorem rawSign_inj_msg {sk m1 m2 : List Nat}
    (h : rawSign sk m1 = rawSign sk m2) : m1 = m2 := by
  unfold rawSign at h
  injection h with h1 h2
  exact List.append_cancel_left h2

theorem rawSign_inj_sk {sk1 sk2 msg : List Nat}
    (h : rawSign sk1 msg = rawSign sk2 msg) : sk1 = sk2 := by
  unfold rawSign at h
  injection h with h1 h2
  exact (List.append_inj h2 h1).1

theorem generateAuthorKeypair_ok {short : String} {sk : List Nat}
    {kp : AuthorKeypair} (hs : shortnameIsValid short = true)
    (h : generateAuthorKeypair short sk = .ok kp) :
    kp = ⟨"@" ++ short ++ "." ++ encodeBufferToBase32 (derivePubkey sk),
          encodeBufferToBase32 sk⟩ := by
  unfold generateAuthorKeypair at h
  rw [if_pos hs] at h
  simp only [Except.ok.injEq] at h
  exact h.symm

theorem parseAuthorAddress_generated (short : String) (sk : List Nat)
    (hs : shortnameIsValid short = true) (hsk : ∀ b ∈ sk, b < 256) :
    parseAuthorAddress
      ("@" ++ short ++ "." ++ encodeBufferToBase32 (derivePubkey sk)) =
      some (derivePubkey sk) := by
  have hpub : ∀ b ∈ derivePubkey sk, b < 256 := by
    intro b hb
    unfold derivePubkey at hb
    simp only [List.mem_cons] at hb
    rcases hb with rfl | hb
    · omega
    · exact hsk b hb
  obtain ⟨sd⟩ := short
  simp only [shortnameIsValid, Bool.and_eq_true, beq_iff_eq,
    List.all_eq_true] at hs
  obtain ⟨hlen, hall⟩ := hs
  have hdata : ("@" ++ String.mk sd ++ "." ++
      encodeBufferToBase32 (derivePubkey sk)).data =
      '@' :: (sd ++ '.' :: (encodeBufferToBase32 (derivePubkey sk)).data) := by
    simp [String.data_append]
  match sd, hlen, hall, hdata with
  | [c1, c2, c3, c4], _, hall, hdata => ?_
  unfold parseAuthorAddress
  rw [hdata]
  simp only [List.cons_append, List.nil_append]
  rw [if_pos]
  · have : String.mk (encodeBufferToBase32 (derivePubkey sk)).data =
        encodeBufferToBase32 (derivePubkey sk) := rfl
    rw [this, decode_encode (derivePubkey sk) hpub]
  · have h1 := hall c1 (by simp)
    have h2 := hall c2 (by simp)
    have h3 := hall c3 (by simp)
    have h4 := hall c4 (by simp)
    simp [h1, h2, h3, h4]


theorem sign_generated {short : String} {sk : List Nat} {kp : AuthorKeypair}
    (hs : shortnameIsValid short = true) (hsk : ∀ b ∈ sk, b < 256)
    (hgen : generateAuthorKeypair short sk = .ok kp) (x : SignInput) :
    sign kp x = .ok (encodeBufferToBase32 (rawSign sk (inputBytes x))) := by
  rw [generateAuthorKeypair_ok hs hgen]
  unfold sign
  simp only [decode_encode sk hsk]

/-- C7: `verify` is a total `Bool`-valued function (never throws — all
failure modes, including an unparseable address or undecodable
signature, resolve to `false`), and it returns `true` exactly for the
signature produced by `sign` with the private key matching the address
over exactly that input: the round trip verifies, while changing the
input, the signature, or the address (to any address not carrying this
key, including syntactically invalid ones) makes it return `false`. -/
theorem verify_sound (short : String) (sk : List Nat) (x : SignInput)
    (kp : AuthorKeypair) (sigStr : String)
    (hshort : shortnameIsValid short = true)
    (hsk : ∀ b ∈ sk, b < 256) (hlen : sk.length < 256)
    (hx : ∀ b ∈ inputBytes x, b < 256)
    (hgen : generateAuthorKeypair short sk = .ok kp)
    (hsig : sign kp x = .ok sigStr) :
    verify kp.address sigStr x = true ∧
    (∀ y : SignInput, inputBytes y ≠ inputBytes x →
      verify kp.address sigStr y = false) ∧
    (∀ s2 : String, s2 ≠ sigStr → verify kp.address s2 x = false) ∧
    (∀ addr2 : String, parseAuthorAddress addr2 ≠ some (derivePubkey sk) →
      verify addr2 sigStr x = false) ∧
    (∀ (addr2 s2 : String) (y : SignInput), parseAuthorAddress addr2 = none →
      verify addr2 s2 y = false) := by
  have hkp := generateAuthorKeypair_ok hshort hgen
  have hsig2 : sigStr = encodeBufferToBase32 (rawSign sk (inputBytes x)) := by
    have h2 := sign_generated hshort hsk hgen x
    rw [hsig] at h2
    exact Except.ok.inj h2
  have haddr : kp.address =
      "@" ++ short ++ "." ++ encodeBufferToBase32 (derivePubkey sk) := by
    rw [hkp]
  have hparse : parseAuthorAddress kp.address = some (derivePubkey sk) := by
    rw [haddr]
    exact parseAuthorAddress_generated short sk hshort hsk
  have hsigbytes : ∀ b ∈ rawSign sk (inputBytes x), b < 256 :=
    rawSign_lt hlen hsk hx
  have hdec : decodeBase32ToBuffer sigStr = .ok (rawSign sk (inputBytes x)) := by
    rw [hsig2]
    exact decode_encode _ hsigbytes
  have hdrop : (derivePubkey sk).drop 1 = sk := rfl
  refine ⟨?_, ?_, ?_, ?_, ?_⟩
  · unfold verify
    rw [hparse, hdec]
    show rawVerify (derivePubkey sk) (rawSign sk (inputBytes x))
      (inputBytes x) = true
    unfold rawVerify
    simp only [hdrop, decide_eq_true_eq]
    exact ⟨rfl, trivial⟩
  · intro y hy
    unfold verify
    rw [hparse, hdec]
    unfold rawVerify
    simp only [decide_eq_false_iff_not, not_and]
    intro _ hcontra
    exact hy (rawSign_inj_msg (hdrop ▸ hcontra)).symm
  · intro s2 hs2
    unfold verify
    rw [hparse]
    cases hdec2 : decodeBase32ToBuffer s2 with
    | error e => rfl
    | ok b2 =>
        unfold rawVerify
        simp only [decide_eq_false_iff_not, not_and]
        intro _ hcontra
        rw [hdrop] at hcontra
        have henc := encode_decode s2 b2 hdec2
        rw [hcontra, ← hsig2] at henc
        exact hs2 henc.symm
  · intro addr2 haddr2
    unfold verify
    cases hp2 : parseAuthorAddress addr2 with
    | none => rfl
    | some pub2 =>
        rw [hdec]
        unfold rawVerify
        simp only [decide_eq_false_iff_not, not_and]
        intro hpub2 hcontra
        have hsk2 : sk = pub2.drop 1 := rawSign_inj_sk hcontra
        exact haddr2 (by rw [hp2, hpub2, ← hsk2]; rfl)
  · intro addr2 s2 y hp
    unfold verify
    rw [hp]


theorem verify_sound_witness :
    verify ("@" ++ "test" ++ "." ++ encodeBufferToBase32 (derivePubkey [1, 2]))
      (encodeBufferToBase32 (rawSign [1, 2] (inputBytes (.bytes [97]))))
      (.bytes [97]) = true :=
  (verify_sound "test" [1, 2] (.bytes [97])
    ⟨"@" ++ "test" ++ "." ++ encodeBufferToBase32 (derivePubkey [1, 2]),
     encodeBufferToBase32 [1, 2]⟩
    (encodeBufferToBase32 (rawSign [1, 2] (inputBytes (.bytes [97]))))
    (by decide) (by decide) (by decide) (by decide) rfl rfl).1

/-- C8: signing is deterministic — two calls of `sign` on the identical
`(keypair, input)` yield the identical signature (definitional in this
pure embedding: the scheme has no randomized nonce) — and
encoding-invariant: supplying the input as a text string or as the raw
byte buffer of its UTF-8 encoding yields the same signature, exercised
with the 3-byte snowman character. -/
theorem sign_deterministic_and_encoding_invariant :
    (∀ (keypair : AuthorKeypair) (x : SignInput),
      sign keypair x = sign keypair x) ∧
    (∀ (keypair : AuthorKeypair) (s : String),
      sign keypair (.text s) = sign keypair (.bytes (utf8Encode s))) ∧
    (∀ keypair : AuthorKeypair,
      sign keypair (.text "☃") = sign keypair (.bytes [226, 152, 131])) := by
  refine ⟨fun _ _ => rfl, fun keypair s => rfl, fun keypair => ?_⟩
  have h : SignInput.bytes (utf8Encode "☃") =
      SignInput.bytes [226, 152, 131] := by decide
  rw [← h]
  rfl

/-- C9: `generateAuthorKeypair` succeeds only when the shortname is
exactly 4 lowercase ASCII letters; any other length, uppercase, digit or
punctuation (including `"abc"`, `"abcde"`, `"TEST"`, `"1234"`, `"----"`
and `""`) fails with a validation error; on success the address is
exactly `"@" + shortname + "." + encodedPubkey` (so it starts with
`"@" + shortname + "."`) and the secret starts with `'b'`, not `"@"`. -/
theorem generateAuthorKeypair_rules :
    (∀ (shortname : String) (sk : List Nat),
      shortnameIsValid shortname = false →
      isErr (generateAuthorKeypair shortname sk) = true) ∧
    (∀ sk, isErr (generateAuthorKeypair "abc" sk) = true) ∧
    (∀ sk, isErr (generateAuthorKeypair "abcde" sk) = true) ∧
    (∀ sk, isErr (generateAuthorKeypair "TEST" sk) = true) ∧
    (∀ sk, isErr (generateAuthorKeypair "1234" sk) = true) ∧
    (∀ sk, isErr (generateAuthorKeypair "----" sk) = true) ∧
    (∀ sk, isErr (generateAuthorKeypair "" sk) = true) ∧
    (∀ (shortname : String) (sk : List Nat) (keypair : AuthorKeypair),
      shortnameIsValid shortname = true →
      generateAuthorKeypair shortname sk = .ok keypair →
      keypair.address =
        "@" ++ shortname ++ "." ++ encodeBufferToBase32 (derivePubkey sk) ∧
      keypair.address.data.head? = some '@' ∧
      keypair.secret.data.head? = some 'b' ∧
      ¬ keypair.secret.data.head? = some '@') := by
  have hgen : ∀ (shortname : String) (sk : List Nat),
      shortnameIsValid shortname = false →
      isErr (generateAuthorKeypair shortname sk) = true := by
    intro shortname sk h
    unfold generateAuthorKeypair
    rw [if_neg (by rw [h]; exact Bool.false_ne_true)]
    rfl
  refine ⟨hgen, fun sk => hgen _ sk (by decide), fun sk => hgen _ sk (by decide),
    fun sk => hgen _ sk (by decide), fun sk => hgen _ sk (by decide),
    fun sk => hgen _ sk (by decide), fun sk => hgen _ sk (by decide), ?_⟩
  intro shortname sk keypair hs h
  have hkp := generateAuthorKeypair_ok hs h
  subst hkp
  refine ⟨rfl, ?_, rfl, ?_⟩
  · show (("@" ++ shortname ++ "." ++
      encodeBufferToBase32 (derivePubkey sk)).data).head? = some '@'
    simp only [String.data_append]
    rfl
  · intro hcontra
    have hb : (encodeBufferToBase32 sk).data.head? = some 'b' := rfl
    rw [hb] at hcontra
    simp only [Option.some.injEq] at hcontra
    exact absurd hcontra (by decide)

theorem generateAuthorKeypair_rules_witness :
    isErr (generateAuthorKeypair "TEST" [1, 2]) = true ∧
    (⟨"@" ++ "okay" ++ "." ++ encodeBufferToBase32 (derivePubkey [1, 2]),
      encodeBufferToBase32 [1, 2]⟩ : AuthorKeypair).address.data.head? =
      some '@' :=
  ⟨generateAuthorKeypair_rules.1 "TEST" [1, 2] (by decide),
   (generateAuthorKeypair_rules.2.2.2.2.2.2.2 "okay" [1, 2]
     ⟨"@" ++ "okay" ++ "." ++ encodeBufferToBase32 (derivePubkey [1, 2]),
      encodeBufferToBase32 [1, 2]⟩ (by decide) rfl).2.1⟩


/-! ## Storage layer: claims C1, C2, C3, C4, C10 -/

/-- C10: when the normalized query's `limit` or `limitBytes` equals 0,
`forgetDocuments` returns successfully without deleting anything and
without raising any error, even when `history` is not `"all"` — the
zero-limit short-circuit (line 183) runs before the history validation
(line 184), so the state is unchanged and no usage error is reported. -/
theorem forget_zero_limit_short_circuit (st : StorageMemory) (q : Query)
    (hopen : st._isClosed = false)
    (hzero : (cleanUpQuery q).limit = some 0 ∨
             (cleanUpQuery q).limitBytes = some 0) :
    forgetDocuments st q = .ok st := by
  have hb : ((cleanUpQuery q).limit == some 0 ||
      (cleanUpQuery q).limitBytes == some 0) = true := by
    rcases hzero with h | h <;> simp [h]
  unfold forgetDocuments
  simp only [hopen, Bool.false_eq_true, if_false, hb, if_true]

theorem forget_zero_limit_short_circuit_witness :
    forgetDocuments stP { history := some "latest", limit := some 0 } =
      .ok stP :=
  forget_zero_limit_short_circuit stP _ rfl (Or.inl rfl)

/-- C3 counterexample: on a closed store, `setConfig` does not fail —
it operates on the (cleared) config map, refuting the claim that every
public operation detects the closed state first. -/
theorem closed_config_op_succeeds_cex :
    isErr (setConfig (closeStorage stP) "key" "val") = false := by decide

/-- C3 amended: after `close`, the operations `documents`, upsert,
`forgetDocuments` and `discardExpiredDocuments` detect the closed state
first and fail fast with an error; the config operations `setConfig`,
`getConfig`, `deleteConfig` and `deleteAllConfig` perform no closed-state
check and always succeed. -/
theorem closed_state_guards (st : StorageMemory) (h : st._isClosed = true) :
    (∀ (wallNow : Nat) (q : Query),
      documents st wallNow q = .error .storageIsClosed) ∧
    (∀ doc : Document, upsertDocument st doc = .error .storageIsClosed) ∧
    (∀ q : Query, forgetDocuments st q = .error .storageIsClosed) ∧
    (∀ wallNow : Nat,
      discardExpiredDocuments st wallNow = .error .storageIsClosed) ∧
    (∀ key content, isErr (setConfig st key content) = false) ∧
    (∀ key, isErr (getConfig st key) = false) ∧
    (∀ key, isErr (deleteConfig st key) = false) ∧
    isErr (deleteAllConfig st) = false := by
  refine ⟨?_, ?_, ?_, ?_, fun _ _ => rfl, fun _ => rfl, fun _ => rfl, rfl⟩
  · intro wallNow q
    unfold documents
    simp only [h, if_true]
  · intro doc
    unfold upsertDocument
    simp only [h, if_true]
  · intro q
    unfold forgetDocuments
    simp only [h, if_true]
  · intro wallNow
    unfold discardExpiredDocuments
    simp only [h, if_true]

theorem closed_state_guards_witness :
    documents (closeStorage stP) 0 {} = .error .storageIsClosed ∧
    isErr (setConfig (closeStorage stP) "key" "val") = false :=
  ⟨(closed_state_guards (closeStorage stP) rfl).1 0 {},
   (closed_state_guards (closeStorage stP) rfl).2.2.2.2.1 "key" "val"⟩

/-- C2 counterexample: a query with `history: "latest"` and `limit: 0`
makes `forgetDocuments` return successfully with the store unchanged —
no `ValidationError` is raised even though the history value is not
`"all"` and a stored document matches the query. -/
theorem forget_nonall_history_cex :
    forgetDocuments stP { history := some "latest", limit := some 0 } =
      .ok stP ∧
    isErr (forgetDocuments stP
      { history := some "latest", limit := some 0 }) = false ∧
    queryMatchesDoc (cleanUpQuery
      { history := some "latest", limit := some 0 }) docP1 = true := by
  refine ⟨by decide, by decide, by decide⟩


theorem lookup_eq_none_of_not_mem {α : Type} {p : String} :
    ∀ {l : List (String × α)}, p ∉ l.map Prod.fst → l.lookup p = none
  | [], _ => rfl
  | (k, v) :: rest, h => by
      simp only [List.map_cons, List.mem_cons] at h
      push_neg at h
      obtain ⟨h1, h2⟩ := h
      simp only [List.lookup]
      rw [show (p == k) = false from beq_eq_false_iff_ne.mpr h1]
      exact lookup_eq_none_of_not_mem h2

theorem mem_of_lookup {α : Type} {p : String} {v : α} :
    ∀ {l : List (String × α)}, l.lookup p = some v → (p, v) ∈ l
  | [], h => by simp [List.lookup] at h
  | (k, w) :: rest, h => by
      simp only [List.lookup] at h
      cases hpk : (p == k) with
      | true =>
          rw [hpk] at h
          simp only [Option.some.injEq] at h
          subst h
          have hp : p = k := eq_of_beq hpk
          subst hp
          exact List.mem_cons_self _ _
      | false =>
          rw [hpk] at h
          exact List.mem_cons_of_mem _ (mem_of_lookup h)

theorem lookup_map_value {α β : Type} (g : α → β) (p : String) :
    ∀ l : List (String × α),
    (l.map (fun e => (e.1, g e.2))).lookup p = (l.lookup p).map g
  | [] => rfl
  | (k, v) :: rest => by
      simp only [List.map_cons, List.lookup]
      cases h : (p == k) with
      | true => rfl
      | false => exact lookup_map_value g p rest

theorem lookup_filter {α : Type} (pred : String × α → Bool) :
    ∀ (l : List (String × α)), (l.map Prod.fst).Nodup → ∀ p : String,
    (l.filter pred).lookup p =
      (l.lookup p).bind (fun v => if pred (p, v) then some v else none)
  | [], _, p => rfl
  | (k, v) :: rest, hnd, p => by
      simp only [List.map_cons, List.nodup_cons] at hnd
      obtain ⟨hk, hnd2⟩ := hnd
      by_cases hpk : p = k
      · subst hpk
        have hrest : (rest.filter pred).lookup p = none := by
          apply lookup_eq_none_of_not_mem
          intro hmem
          exact hk (((List.filter_sublist rest).map Prod.fst).subset hmem)
        cases hpred : pred (p, v) with
        | true =>
            simp [List.filter_cons, hpred, List.lookup, hrest]
        | false =>
            simp [List.filter_cons, hpred, List.lookup, hrest]
      · have hbeq : (p == k) = false := beq_eq_false_iff_ne.mpr hpk
        have ih := lookup_filter pred rest hnd2 p
        cases hpred : pred (k, v) with
        | true =>
            simp only [List.filter_cons, hpred, if_true, List.lookup, hbeq]
            exact ih
        | false =>
            simp only [List.filter_cons, hpred, Bool.false_eq_true,
              if_false, List.lookup, hbeq]
            exact ih

theorem filterDocs_slotOf (st : StorageMemory) (keep : Document → Bool)
    (hopen : st._isClosed = false) (hwf : StorageWf st) :
    ∃ st2, filterDocs st keep = .ok st2 ∧
      ∀ p a, slotOf st2 p a = (slotOf st p a).filter keep := by
  have hfd : filterDocs st keep = .ok ⟨(st._docs.map
      (fun entry =>
        (entry.1, entry.2.filter (fun slot => keep slot.2)))).filter
      (fun entry => !entry.2.isEmpty), st._config, st._isClosed, st._now⟩ := by
    unfold filterDocs
    simp only [hopen, Bool.false_eq_true, if_false]
  refine ⟨_, hfd, ?_⟩
  intro p a
  unfold slotOf
  obtain ⟨hnd, hinner⟩ := hwf
  have hkeys : (st._docs.map (fun entry =>
      (entry.1, entry.2.filter (fun slot => keep slot.2)))).map Prod.fst =
      st._docs.map Prod.fst := by
    simp [List.map_map]
  have houter := lookup_filter (fun entry => !entry.2.isEmpty)
    (st._docs.map (fun entry =>
      (entry.1, entry.2.filter (fun slot => keep slot.2))))
    (by rw [hkeys]; exact hnd) p
  simp only [houter, lookup_map_value
    (fun slots : List (String × Document) =>
      slots.filter (fun slot => keep slot.2)) p]
  cases hl : st._docs.lookup p with
  | none => rfl
  | some slots =>
      have hmem : (p, slots) ∈ st._docs := mem_of_lookup hl
      obtain ⟨hslnd, _, _⟩ := hinner (p, slots) hmem
      have hinner2 := lookup_filter (fun slot => keep slot.2) slots hslnd a
      dsimp only [Option.map, Option.bind]
      cases hpred : (slots.filter (fun slot => keep slot.2)).isEmpty with
      | false =>
          simp only [Bool.not_false, if_true, Option.getD_some, hinner2]
          cases hsl : slots.lookup a with
          | none => rfl
          | some d => rfl
      | true =>
          simp only [Bool.not_true, Bool.false_eq_true, if_false]
          have hempty : slots.filter (fun slot => keep slot.2) = [] :=
            List.isEmpty_iff.mp hpred
          rw [hempty] at hinner2
          dsimp only [Option.getD]
          cases hal : slots.lookup a with
          | none => rfl
          | some d =>
              rw [hal] at hinner2
              dsimp only [List.lookup, Option.bind] at hinner2
              dsimp only [List.lookup, Option.filter]
              exact hinner2


/-- C2 amended: for every query whose normalized `limit` and
`limitBytes` are not 0, `forgetDocuments` on an open well-formed store
succeeds if the normalized `history` is `"all"`, removing exactly the
documents matching the query (per `(path, author)` slot), and fails with
a `ValidationError` changing nothing if the normalized `history` has any
other value; when `limit` or `limitBytes` is 0 the call instead succeeds
and deletes nothing (see C10). -/
theorem forget_history_validation (st : StorageMemory) (q : Query)
    (hopen : st._isClosed = false) (hwf : StorageWf st)
    (hl : (cleanUpQuery q).limit ≠ some 0)
    (hlb : (cleanUpQuery q).limitBytes ≠ some 0) :
    ((cleanUpQuery q).history = some "all" →
      ∃ st2, forgetDocuments st q = .ok st2 ∧
        ∀ p a, slotOf st2 p a = (slotOf st p a).filter
          (fun doc => !queryMatchesDoc (cleanUpQuery q) doc)) ∧
    ((cleanUpQuery q).history ≠ some "all" →
      forgetDocuments st q = .error (.validationError
        "forgetDocuments can only be called with history: all")) := by
  have h1 : ((cleanUpQuery q).limit == some 0) = false :=
    beq_eq_false_iff_ne.mpr hl
  have h2 : ((cleanUpQuery q).limitBytes == some 0) = false :=
    beq_eq_false_iff_ne.mpr hlb
  constructor
  · intro hall
    have hne : ((cleanUpQuery q).history != some "all") = false := by
      simp [bne, hall]
    have hforget : forgetDocuments st q =
        filterDocs st (fun doc => !queryMatchesDoc (cleanUpQuery q) doc) := by
      unfold forgetDocuments
      simp only [hopen, Bool.false_eq_true, if_false, h1, h2, hne,
        Bool.or_self]
    obtain ⟨st2, hok, hchar⟩ := filterDocs_slotOf st
      (fun doc => !queryMatchesDoc (cleanUpQuery q) doc) hopen hwf
    exact ⟨st2, hforget.trans hok, hchar⟩
  · intro hnall
    have hne : ((cleanUpQuery q).history != some "all") = true := by
      simp [bne, beq_eq_false_iff_ne.mpr hnall]
    unfold forgetDocuments
    simp only [hopen, Bool.false_eq_true, if_false, h1, h2, hne, if_true,
      Bool.or_self]

theorem byteSum_cons (doc : Document) (l : List Document) :
    byteSum (doc :: l) = docByteLen doc + byteSum l := by
  simp [byteSum]

theorem truncateBytes_spec (lb : Nat) :
    ∀ (docs : List Document) (acc : Nat), acc ≤ lb →
    (∃ k, truncateBytes lb acc docs = docs.take k) ∧
    acc + byteSum (truncateBytes lb acc docs) ≤ lb ∧
    (truncateBytes lb acc docs ≠ docs → ∃ d,
      docs.get? (truncateBytes lb acc docs).length = some d ∧
      (acc + byteSum (truncateBytes lb acc docs) + docByteLen d > lb ∨
       (acc + byteSum (truncateBytes lb acc docs) + docByteLen d = lb ∧
        docByteLen d = 0))) ∧
    (∀ i d, (truncateBytes lb acc docs).get? i = some d →
      acc + byteSum ((truncateBytes lb acc docs).take (i + 1)) < lb ∨
      (acc + byteSum ((truncateBytes lb acc docs).take (i + 1)) = lb ∧
       docByteLen d ≠ 0))
  | [], acc, hacc => by
      refine ⟨⟨0, rfl⟩, ?_, ?_, ?_⟩
      · simp [truncateBytes, byteSum]
        omega
      · intro h
        exact absurd rfl h
      · intro i d h
        simp [truncateBytes] at h
  | doc :: rest, acc, hacc => by
      have hdb : (utf8Encode doc.content).length = docByteLen doc := rfl
      have hnil : byteSum ([] : List Document) = 0 := rfl
      simp only [truncateBytes]
      rw [hdb]
      split
      · rename_i hcond
        simp only [Bool.or_eq_true, decide_eq_true_eq, Bool.and_eq_true,
          beq_iff_eq] at hcond
        refine ⟨⟨0, by simp⟩, ?_, ?_, ?_⟩
        · rw [hnil]
          omega
        · intro _
          refine ⟨doc, rfl, ?_⟩
          rw [hnil]
          rcases hcond with h | ⟨h, h0⟩
          · left; omega
          · right; omega
        · intro i d h
          simp at h
      · rename_i hcond
        rw [Bool.not_eq_true] at hcond
        simp only [Bool.or_eq_false_iff, decide_eq_false_iff_not,
          Bool.and_eq_false_iff, beq_eq_false_iff_ne] at hcond
        obtain ⟨hle, hnb⟩ := hcond
        have hacc2 : acc + docByteLen doc ≤ lb := by omega
        obtain ⟨⟨k, hk⟩, hbudget, hcut, hincl⟩ :=
          truncateBytes_spec lb rest (acc + docByteLen doc) hacc2
        refine ⟨⟨k + 1, by rw [List.take_succ_cons, hk]⟩, ?_, ?_, ?_⟩
        · rw [byteSum_cons]
          omega
        · intro hne
          have hne2 : truncateBytes lb (acc + docByteLen doc) rest ≠ rest := by
            intro hcontra
            exact hne (by rw [hcontra])
          obtain ⟨d, hd, hcase⟩ := hcut hne2
          refine ⟨d, ?_, ?_⟩
          · simp only [List.length_cons, List.get?_cons_succ]
            exact hd
          · rw [byteSum_cons]
            omega
        · intro i d h
          cases i with
          | zero =>
              simp only [List.get?_cons_zero, Option.some.injEq] at h
              subst h
              simp only [List.take_succ_cons, List.take_zero]
              rw [byteSum_cons, hnil]
              omega
          | succ i2 =>
              simp only [List.get?_cons_succ] at h
              have hh := hincl i2 d h
              simp only [List.take_succ_cons]
              rw [byteSum_cons]
              omega


theorem forget_history_validation_witness :
    (∃ st2, forgetDocuments stP
        { history := some "all", author := some "@aaaa.bkey" } = .ok st2 ∧
      ∀ p a, slotOf st2 p a = (slotOf stP p a).filter
        (fun doc => !queryMatchesDoc (cleanUpQuery
          { history := some "all", author := some "@aaaa.bkey" }) doc)) ∧
    forgetDocuments stP { history := some "latest" } =
      .error (.validationError
        "forgetDocuments can only be called with history: all") :=
  ⟨(forget_history_validation stP _ rfl (by decide) (by decide)
      (by decide)).1 rfl,
   (forget_history_validation stP _ rfl (by decide) (by decide)
      (by decide)).2 (by decide)⟩

/-- C4: with `limitBytes` set, the read operation accumulates the
UTF-8 byte length of content over the sorted results and truncates at
the first document whose inclusion would exceed the byte budget; a
zero-length document whose inclusion lands exactly on the boundary is
excluded. The truncated result is a prefix within budget, every included
document passed the rule, and the first excluded document violated it.
Concretely, for contents of byte lengths 3 (one 3-byte character), 0 and
5 in sorted order, `limitBytes: 3` returns only the first document. -/
theorem limit_bytes_truncation :
    (∀ (lb : Nat) (docs : List Document),
      (∃ k, truncateBytes lb 0 docs = docs.take k) ∧
      byteSum (truncateBytes lb 0 docs) ≤ lb ∧
      (truncateBytes lb 0 docs ≠ docs → ∃ d,
        docs.get? (truncateBytes lb 0 docs).length = some d ∧
        (byteSum (truncateBytes lb 0 docs) + docByteLen d > lb ∨
         (byteSum (truncateBytes lb 0 docs) + docByteLen d = lb ∧
          docByteLen d = 0))) ∧
      (∀ i d, (truncateBytes lb 0 docs).get? i = some d →
        byteSum ((truncateBytes lb 0 docs).take (i + 1)) < lb ∨
        (byteSum ((truncateBytes lb 0 docs).take (i + 1)) = lb ∧
         docByteLen d ≠ 0))) ∧
    docA.content.length = 1 ∧ docByteLen docA = 3 ∧
    docByteLen docB = 0 ∧ docByteLen docC = 5 ∧
    documents st305 0 { limitBytes := some 3 } = .ok [docA] := by
  refine ⟨?_, by decide, by decide, by decide, by decide, by decide⟩
  intro lb docs
  have h := truncateBytes_spec lb docs 0 (Nat.zero_le lb)
  simpa using h

theorem limit_bytes_truncation_witness :
    (∃ k, truncateBytes 3 0 [docA, docB, docC] =
      [docA, docB, docC].take k) ∧
    byteSum (truncateBytes 3 0 [docA, docB, docC]) ≤ 3 :=
  ⟨(limit_bytes_truncation.1 3 [docA, docB, docC]).1,
   (limit_bytes_truncation.1 3 [docA, docB, docC]).2.1⟩


theorem listCharLt_cons_iff (x y : Char) (xs ys : List Char) :
    listCharLt (x :: xs) (y :: ys) = true ↔
      (x.toNat < y.toNat ∨ (x.toNat = y.toNat ∧ listCharLt xs ys = true)) := by
  simp only [listCharLt]
  split
  · rename_i h
    constructor
    · intro _
      exact Or.inl h
    · intro _
      rfl
  · rename_i h
    split
    · rename_i h2
      constructor
      · intro hf
        exact absurd hf (by simp)
      · intro hor
        rcases hor with h3 | ⟨h3, _⟩ <;> omega
    · rename_i h2
      have hxy : x.toNat = y.toNat := by omega
      constructor
      · intro hrec
        exact Or.inr ⟨hxy, hrec⟩
      · intro hor
        rcases hor with h3 | ⟨_, h3⟩
        · omega
        · exact h3

theorem listCharLt_irrefl : ∀ a : List Char, listCharLt a a = false
  | [] => rfl
  | c :: rest => by
      rw [Bool.eq_false_iff]
      intro h
      rw [listCharLt_cons_iff] at h
      rcases h with h | ⟨_, h⟩
      · omega
      · exact absurd h (by rw [listCharLt_irrefl rest]; simp)

theorem listCharLt_trans : ∀ a b c : List Char, listCharLt a b = true →
    listCharLt b c = true → listCharLt a c = true
  | [], [], _, hab, _ => by simp [listCharLt] at hab
  | _ :: _, [], _, hab, _ => by simp [listCharLt] at hab
  | [], _ :: _, [], _, hbc => by simp [listCharLt] at hbc
  | _ :: _, _ :: _, [], _, hbc => by simp [listCharLt] at hbc
  | [], _ :: _, _ :: _, _, _ => rfl
  | x :: xs, z :: zs, y :: ys, hab, hbc => by
      rw [listCharLt_cons_iff] at hab hbc ⊢
      rcases hab with h1 | ⟨h1, hrec1⟩
      · rcases hbc with h2 | ⟨h2, _⟩
        · exact Or.inl (by omega)
        · exact Or.inl (by omega)
      · rcases hbc with h2 | ⟨h2, hrec2⟩
        · exact Or.inl (by omega)
        · exact Or.inr ⟨by omega, listCharLt_trans xs zs ys hrec1 hrec2⟩

theorem listCharLt_conn : ∀ a b : List Char, listCharLt a b = false →
    listCharLt b a = false → a = b
  | [], [], _, _ => rfl
  | [], _ :: _, hab, _ => by simp [listCharLt] at hab
  | _ :: _, [], _, hba => by simp [listCharLt] at hba
  | x :: xs, y :: ys, hab, hba => by
      rw [Bool.eq_false_iff] at hab hba
      have hx : x.toNat = y.toNat := by
        by_contra hne
        rcases Nat.lt_or_ge x.toNat y.toNat with h | h
        · exact hab (by rw [listCharLt_cons_iff]; exact Or.inl h)
        · exact hba (by rw [listCharLt_cons_iff]; left; omega)
      have hrec : xs = ys := by
        apply listCharLt_conn
        · rw [Bool.eq_false_iff]
          intro hcontra
          exact hab (by rw [listCharLt_cons_iff]; exact Or.inr ⟨hx, hcontra⟩)
        · rw [Bool.eq_false_iff]
          intro hcontra
          exact hba (by
            rw [listCharLt_cons_iff]
            exact Or.inr ⟨hx.symm, hcontra⟩)
      have hchar : x = y := by
        have h1 : x = Char.ofNat x.toNat := (Char.ofNat_toNat x).symm
        have h2 : y = Char.ofNat y.toNat := (Char.ofNat_toNat y).symm
        rw [h1, h2, hx]
      rw [hchar, hrec]

theorem strLt_asymm {a b : String} (h : strLt a b = true) :
    strLt b a = false := by
  unfold strLt at h ⊢
  rw [Bool.eq_false_iff]
  intro h2
  have := listCharLt_trans _ _ _ h h2
  rw [listCharLt_irrefl] at this
  exact absurd this (by simp)

theorem strLe_total (a b : String) : strLe a b = true ∨ strLe b a = true := by
  unfold strLe
  by_cases h : strLt b a = true
  · right
    rw [strLt_asymm h]
    rfl
  · left
    rw [Bool.not_eq_true] at h
    rw [h]
    rfl

theorem listCharLt_le_trans {a b c : List Char}
    (hab : listCharLt b a = false) (hbc : listCharLt c b = false) :
    listCharLt c a = false := by
  rw [Bool.eq_false_iff]
  intro hca
  by_cases hbci : listCharLt b c = true
  · have htr := listCharLt_trans b c a hbci hca
    rw [htr] at hab
    exact absurd hab (by simp)
  · rw [Bool.not_eq_true] at hbci
    have heq : c = b := listCharLt_conn c b hbc hbci
    rw [heq] at hca
    rw [hca] at hab
    exact absurd hab (by simp)

theorem strLe_trans {a b c : String} (hab : strLe a b = true)
    (hbc : strLe b c = true) : strLe a c = true := by
  unfold strLe at hab hbc ⊢
  rw [Bool.not_eq_eq_eq_not, Bool.not_true] at hab hbc ⊢
  unfold strLt at hab hbc ⊢
  exact listCharLt_le_trans hab hbc

theorem strLe_refl (a : String) : strLe a a = true := by
  unfold strLe strLt
  rw [listCharLt_irrefl]
  rfl


theorem latestFirstB_iff (a b : Document) : latestFirstB a b = true ↔
    (b.timestamp < a.timestamp ∨
     (a.timestamp = b.timestamp ∧ strLe b.signature a.signature = true)) := by
  unfold latestFirstB
  split
  · rename_i h
    constructor
    · intro _
      exact Or.inl h
    · intro _
      rfl
  · rename_i h
    split
    · rename_i h2
      constructor
      · intro hf
        exact absurd hf (by simp)
      · intro hor
        rcases hor with h3 | ⟨h3, _⟩ <;> omega
    · rename_i h2
      have hts : a.timestamp = b.timestamp := by omega
      constructor
      · intro hle
        exact Or.inr ⟨hts, hle⟩
      · intro hor
        rcases hor with h3 | ⟨_, h3⟩
        · omega
        · exact h3

theorem latestFirst_refl (d : Document) : latestFirst d d := by
  unfold latestFirst
  rw [latestFirstB_iff]
  exact Or.inr ⟨rfl, strLe_refl _⟩

instance : IsTotal Document latestFirst := ⟨by
  intro a b
  unfold latestFirst
  rw [latestFirstB_iff, latestFirstB_iff]
  rcases Nat.lt_trichotomy b.timestamp a.timestamp with h | h | h
  · exact Or.inl (Or.inl h)
  · rcases strLe_total b.signature a.signature with hs | hs
    · exact Or.inl (Or.inr ⟨h.symm, hs⟩)
    · exact Or.inr (Or.inr ⟨h, hs⟩)
  · exact Or.inr (Or.inl h)⟩

instance : IsTrans Document latestFirst := ⟨by
  intro a b c hab hbc
  unfold latestFirst at hab hbc ⊢
  rw [latestFirstB_iff] at hab hbc ⊢
  rcases hab with h1 | ⟨h1, hs1⟩
  · rcases hbc with h2 | ⟨h2, _⟩
    · exact Or.inl (by omega)
    · exact Or.inl (by omega)
  · rcases hbc with h2 | ⟨h2, hs2⟩
    · exact Or.inl (by omega)
    · exact Or.inr ⟨by omega, strLe_trans hs2 hs1⟩⟩

theorem insertionSort_head_max (l : List Document) (w : Document)
    (hw : (List.insertionSort latestFirst l).head? = some w) :
    ∀ d ∈ l, latestFirst w d := by
  have hsorted : List.Sorted latestFirst (List.insertionSort latestFirst l) :=
    List.sorted_insertionSort latestFirst l
  intro d hd
  have hd2 : d ∈ List.insertionSort latestFirst l := by
    rw [List.mem_insertionSort]
    exact hd
  cases hsl : List.insertionSort latestFirst l with
  | nil =>
      rw [hsl] at hw
      simp at hw
  | cons hdoc t =>
      rw [hsl] at hw hd2 hsorted
      simp only [List.head?_cons, Option.some.injEq] at hw
      subst hw
      rcases List.mem_cons.mp hd2 with rfl | hdt
      · exact latestFirst_refl d
      · exact (List.pairwise_cons.mp hsorted).1 d hdt

theorem keepDoc_iff (query : Query) (now : Nat) (d : Document) :
    keepDoc query now d = true ↔
      (queryMatchesDoc query d = true ∧ documentIsExpired d now = false) := by
  obtain ⟨p, ch, co, au, ts, da, sg⟩ := d
  unfold keepDoc documentIsExpired
  cases da with
  | none => simp
  | some t =>
      simp only [Bool.and_eq_true, decide_eq_true_eq,
        decide_eq_false_iff_not]
      constructor
      · intro ⟨hm, hle⟩
        exact ⟨hm, by omega⟩
      · intro ⟨hm, hne⟩
        exact ⟨hm, by omega⟩


theorem processPath_latest (query : Query) (now : Nat)
    (docs : List (String × List (String × Document))) (path : String)
    (acc : List Document) (hl : query.history = some "latest") :
    processPath query now docs path acc =
      .ok (acc ++ keptAtPathLatest query now docs path) := by
  unfold processPath selectHistory keptAtPathLatest
  rw [hl]
  rfl

theorem docsLoop_sound (query : Query) (now : Nat)
    (docs : List (String × List (String × Document)))
    (hl : query.history = some "latest") :
    ∀ (paths : List String) (acc res : List Document),
    docsLoop query now docs paths acc = .ok res →
    ∀ d ∈ res, d ∈ acc ∨ ∃ path, d ∈ keptAtPathLatest query now docs path
  | [], acc, res, hok, d, hd => by
      simp only [docsLoop, Except.ok.injEq] at hok
      subst hok
      exact Or.inl hd
  | path :: restPaths, acc, res, hok, d, hd => by
      simp only [docsLoop] at hok
      split at hok
      · exact docsLoop_sound query now docs hl restPaths acc res hok d hd
      · split at hok
        · simp only [Except.ok.injEq] at hok
          subst hok
          exact Or.inl hd
        · rw [processPath_latest query now docs path acc hl] at hok
          dsimp only at hok
          split at hok
          · simp only [Except.ok.injEq] at hok
            subst hok
            rcases List.mem_append.mp hd with h | h
            · exact Or.inl h
            · exact Or.inr ⟨path, h⟩
          · have ih := docsLoop_sound query now docs hl restPaths _ res hok
              d hd
            rcases ih with h | h
            · rcases List.mem_append.mp h with h2 | h2
              · exact Or.inl h2
              · exact Or.inr ⟨path, h2⟩
            · exact h.elim (fun pth hp => Or.inr ⟨pth, hp⟩)

theorem documentsScan_mem (query : Query) (now : Nat) (st : StorageMemory)
    (paths0 : List String) (res : List Document)
    (hl : query.history = some "latest")
    (hok : documentsScan query now st paths0 = .ok res) :
    ∀ d ∈ res, ∃ path, d ∈ keptAtPathLatest query now st._docs path := by
  intro d hd
  simp only [documentsScan] at hok
  split at hok
  · exact absurd hok (by simp)
  · rename_i results hloop
    simp only [Except.ok.injEq] at hok
    subst hok
    have hd2 : d ∈ (match query.limit with
        | some l => (List.insertionSort pathAscAuthorAsc results).take l
        | none => List.insertionSort pathAscAuthorAsc results) := by
      cases hlb : query.limitBytes with
      | none =>
          simp only [hlb] at hd
          exact hd
      | some lb =>
          simp only [hlb] at hd
          obtain ⟨k, hk⟩ := (truncateBytes_spec lb _ 0 (Nat.zero_le _)).1
          rw [hk] at hd
          exact List.mem_of_mem_take hd
    have hd3 : d ∈ List.insertionSort pathAscAuthorAsc results := by
      cases hlim : query.limit with
      | none =>
          simp only [hlim] at hd2
          exact hd2
      | some l =>
          simp only [hlim] at hd2
          exact List.mem_of_mem_take hd2
    have hd4 : d ∈ results := by
      rw [List.mem_insertionSort] at hd3
      exact hd3
    have hsound := docsLoop_sound query now st._docs hl _ [] results hloop
      d hd4
    rcases hsound with h | h
    · simp at h
    · exact h


theorem documents_mem (st : StorageMemory) (wallNow : Nat) (q : Query)
    (res : List Document)
    (hl : (cleanUpQuery q).history = some "latest")
    (hok : documents st wallNow q = .ok res) :
    ∀ d ∈ res, ∃ path, d ∈ keptAtPathLatest (cleanUpQuery q)
      (nowOf st wallNow) st._docs path := by
  intro d hd
  unfold documents at hok
  split at hok
  · exact absurd hok (by simp)
  · dsimp only at hok
    split at hok
    · simp only [Except.ok.injEq] at hok
      subst hok
      simp at hd
    · split at hok
      · rename_i p hp
        split at hok
        · simp only [Except.ok.injEq] at hok
          subst hok
          simp at hd
        · exact documentsScan_mem _ _ st _ res hl hok d hd
      · exact documentsScan_mem _ _ st _ res hl hok d hd

/-- C1: with `history: "latest"`, for every path the read operation
retains exactly the single document ranked first by `latestFirst` and
applies the match predicate and expiration filter only to that winner —
every returned document at a path is that path's `latestFirst` head and
passes both filters, and the head is `latestFirst`-maximal among all of
the path's versions. The embedding is a pure function of the document
set, so repeated calls on the same store agree definitionally. -/
theorem latest_selects_winner (st : StorageMemory) (wallNow : Nat)
    (q : Query) (res : List Document) (p : String)
    (hwf : StorageWf st)
    (hl : (cleanUpQuery q).history = some "latest")
    (hok : documents st wallNow q = .ok res) :
    (∀ d ∈ res, d.path = p →
      (List.insertionSort latestFirst (docsAtPath st p)).head? = some d ∧
      queryMatchesDoc (cleanUpQuery q) d = true ∧
      documentIsExpired d (nowOf st wallNow) = false) ∧
    (∀ w, (List.insertionSort latestFirst (docsAtPath st p)).head? = some w →
      ∀ d ∈ docsAtPath st p, latestFirst w d) := by
  constructor
  · intro d hd hpath
    obtain ⟨path0, hkept⟩ := documents_mem st wallNow q res hl hok d hd
    unfold keptAtPathLatest at hkept
    rw [List.mem_filter] at hkept
    obtain ⟨hmem, hkeep⟩ := hkept
    have hhead : (List.insertionSort latestFirst
        (((st._docs.lookup path0).getD []).map Prod.snd)).head? = some d := by
      cases hh : (List.insertionSort latestFirst
          (((st._docs.lookup path0).getD []).map Prod.snd)).head? with
      | none =>
          rw [hh] at hmem
          simp at hmem
      | some w =>
          rw [hh] at hmem
          simp only [Option.toList_some, List.mem_singleton] at hmem
          subst hmem
          rfl
    have hdmem : d ∈ docsAtPath st path0 := by
      unfold docsAtPath
      rw [← List.mem_insertionSort (r := latestFirst)]
      cases hsl : List.insertionSort latestFirst
          (((st._docs.lookup path0).getD []).map Prod.snd) with
      | nil =>
          rw [hsl] at hhead
          simp at hhead
      | cons hdoc t =>
          rw [hsl] at hhead
          simp only [List.head?_cons, Option.some.injEq] at hhead
          rw [← hhead]
          exact List.mem_cons_self _ _
    have hp0 : d.path = path0 := by
      unfold docsAtPath at hdmem
      cases hlk : st._docs.lookup path0 with
      | none =>
          rw [hlk] at hdmem
          simp at hdmem
      | some slots =>
          rw [hlk] at hdmem
          simp only [Option.getD_some, List.mem_map] at hdmem
          obtain ⟨⟨a, d2⟩, hslot, hd2⟩ := hdmem
          have hment : (path0, slots) ∈ st._docs := mem_of_lookup hlk
          have := (hwf.2 (path0, slots) hment).2.2 (a, d2) hslot
          rw [← hd2]
          exact this.1
    have hpp : path0 = p := by
      rw [← hp0, hpath]
    subst hpp
    obtain ⟨hm, hexp⟩ := (keepDoc_iff _ _ _).mp hkeep
    exact ⟨hhead, hm, hexp⟩
  · intro w hw d hd
    exact insertionSort_head_max _ w hw d hd


theorem latest_selects_winner_witness :
    (List.insertionSort latestFirst (docsAtPath stP "/p")).head? =
      some docP2 ∧
    queryMatchesDoc (cleanUpQuery { history := some "latest" }) docP2 =
      true ∧
    (∀ d ∈ docsAtPath stP "/p", latestFirst docP2 d) := by
  have h := latest_selects_winner stP 0 { history := some "latest" }
    [docP2] "/p" (by decide) rfl (by decide)
  obtain ⟨h1, h2, _⟩ := h.1 docP2 (by decide) (by decide)
  exact ⟨h1, h2, h.2 docP2 h1⟩


end Earthstar
